import Mathlib

/-!
# Model of the vanishr room-admission protocol

The repository admits clients into capacity-bounded rooms.  A room's
metadata hash stores a `connected` field: a JSON-encoded array of
session-token strings.  This file embeds:

* the JSON fragment the system actually stores (arrays of token strings,
  strings, numbers, null): `encodeArr` models `cjson.encode` /
  `JSON.stringify` on a token array, `jsonParse` models `cjson.decode` /
  `JSON.parse` on the stored text;
* the atomic Lua admission script of `src/proxy.ts` (`luaJoin`);
* the three request-handling variants: `proxy` (`src/proxy.ts`),
  `middleware` (`src/middleware.ts`) and `proxyLegacy` (the legacy
  proxy variant), each returning its response, the updated store and a
  trace of store/cookie events in program order;
* the re-validation collaborator (`parseConnected`, `authMiddleware`).
-/

/-- JSON values of the fragment used by the repository: arrays of token
strings, strings, natural numbers and null. -/
inductive Json where
  | arr : List String → Json
  | str : String → Json
  | num : Nat → Json
  | null : Json
deriving DecidableEq

/-- Escape one character of a JSON string body: a quote or backslash gets
a backslash prefix, every other character is kept as-is. -/
def escChar (c : Char) : List Char :=
  if c = '"' ∨ c = '\\' then ['\\', c] else [c]

/-- Escape a whole character list for use inside a JSON string literal. -/
def escStr : List Char → List Char
  | [] => []
  | c :: cs => escChar c ++ escStr cs

/-- Encode a JSON string literal: quote, escaped body, closing quote. -/
def encStrChars (cs : List Char) : List Char :=
  '"' :: (escStr cs ++ ['"'])

/-- Encode the tail of a JSON array of strings (everything after the
opening bracket): comma-separated string literals, closing bracket. -/
def encTail : List (List Char) → List Char
  | [] => [']']
  | [x] => encStrChars x ++ [']']
  | x :: xs => encStrChars x ++ ',' :: encTail xs

/-- JSON-encode a list of token strings, as `cjson.encode` (Lua script)
and `JSON.stringify` / the Upstash client do for the `connected` field. -/
def encodeArr (l : List String) : String :=
  String.mk ('[' :: encTail (l.map String.data))

/-- Parse the body of a JSON string literal (input starts after the
opening quote); returns the unescaped content and the remaining input
after the closing quote. -/
def parseStrBody : List Char → Option (List Char × List Char)
  | [] => none
  | c :: rest =>
      if c = '"' then some ([], rest)
      else if c = '\\' then
        match rest with
        | [] => none
        | c2 :: rest2 =>
            match parseStrBody rest2 with
            | some (s, r) => some (c2 :: s, r)
            | none => none
      else
        match parseStrBody rest with
        | some (s, r) => some (c :: s, r)
        | none => none

/-- Parse the elements of a JSON array of strings (input starts after the
opening bracket).  The fuel argument bounds the recursion depth; call
sites instantiate it with the input length plus one, which always
suffices. -/
def parseElemsF : Nat → List Char → Option (List (List Char) × List Char)
  | 0, _ => none
  | _ + 1, [] => none
  | f + 1, c :: rest =>
      if c = ']' then some ([], rest)
      else if c = '"' then
        match parseStrBody rest with
        | none => none
        | some (s, r) =>
            match r with
            | ',' :: r2 =>
                match parseElemsF f r2 with
                | some (xs, rr) => some (s :: xs, rr)
                | none => none
            | ']' :: r2 => some ([s], r2)
            | _ => none
      else none

/-- Numeric value of a digit run. -/
def digitsVal (cs : List Char) : Nat :=
  cs.foldl (fun n c => 10 * n + (c.toNat - 48)) 0

/-- Parse a JSON document of the fragment: an array of strings, a string,
`null`, or a digit run; anything else is a parse failure. -/
def jsonParseChars : List Char → Option Json
  | [] => none
  | c :: rest =>
      if c = '[' then
        match parseElemsF (rest.length + 1) rest with
        | some (xs, []) => some (Json.arr (xs.map (fun cs => String.mk cs)))
        | _ => none
      else if c = '"' then
        match parseStrBody rest with
        | some (cs, []) => some (Json.str (String.mk cs))
        | _ => none
      else if c :: rest = ['n', 'u', 'l', 'l'] then some Json.null
      else if (c :: rest).all Char.isDigit then some (Json.num (digitsVal (c :: rest)))
      else none

/-- Parse a stored JSON text, as `cjson.decode` / `JSON.parse` do. -/
def jsonParse (s : String) : Option Json :=
  jsonParseChars s.data

/-- A stored `connected` value as observed by a reader through the store
client: an already-deserialized array, a raw string, an absent field, or
some other (invalid) shape. -/
inductive StoredVal where
  | arr : List String → StoredVal
  | str : String → StoredVal
  | absent : StoredVal
  | other : StoredVal
deriving DecidableEq

/-- Normalization helper `parseConnected` of the Elysia auth module: map the observed
`connected` value to a token list.  An array is used as-is; a string is
JSON-parsed and used only if it decodes to an array; anything else
(absence, parse failure, non-array decode) is the empty list. -/
def parseConnected : StoredVal → List String
  | StoredVal.arr xs => xs
  | StoredVal.str s =>
      match jsonParse s with
      | some (Json.arr xs) => xs
      | some _ => []
      | none => []
  | StoredVal.absent => []
  | StoredVal.other => []

/-- The inline normalization of `src/middleware.ts` step 2: a falsy field
(absent or empty string) is skipped; an array is used as-is; a string is
JSON-parsed with an `Array.isArray` check and a catch-all to `[]`.  An
`other` shape coerces through `JSON.parse(String(v))`, which never yields
an array for the shapes the store produces, hence `[]`. -/
def middlewareParse : StoredVal → List String
  | StoredVal.arr xs => xs
  | StoredVal.str s =>
      if s = "" then []
      else
        match jsonParse s with
        | some (Json.arr xs) => xs
        | some _ => []
        | none => []
  | StoredVal.absent => []
  | StoredVal.other => []

/-- The `connected` parse of the legacy proxy variant: it trusts the
observed value to be a raw string and runs `JSON.parse` inside a
`try`/`catch`.  Applied to an already-deserialized array, `JSON.parse`
receives the comma-joined coercion of the array, which is not valid JSON
for the token arrays the system writes, so the catch branch yields `[]`.
The variant has no `Array.isArray` check; a string that decodes to a
non-array leaves a non-array in `connected`, on which the later array
operations misbehave in JS — such shapes are outside the stored data
model and are not exercised below; they are modeled as `[]`. -/
def legacyParse : StoredVal → List String
  | StoredVal.arr _ => []
  | StoredVal.str s =>
      if s = "" then []
      else
        match jsonParse s with
        | some (Json.arr xs) => xs
        | some _ => []
        | none => []
  | StoredVal.absent => []
  | StoredVal.other => []

/-- Normalization inside the Lua script: `HGET` returns the raw string or
nil; `cjson.decode` is attempted under `pcall`, and the result is used
only if it is a table (an array in this fragment). -/
def luaParse : Option String → List String
  | none => []
  | some raw =>
      match jsonParse raw with
      | some (Json.arr xs) => xs
      | _ => []

/-- A room metadata hash: the raw `connected` field (a JSON text, as Redis
stores hash values) and the creation timestamp. -/
structure RoomHash where
  connected : Option String
  createdAt : Option String
deriving DecidableEq

/-- The key-value store: room key to metadata hash. -/
abbrev Store := String → Option RoomHash

/-- Raw `connected` field of a key (`HGET key connected`). -/
def connRaw (st : Store) (key : String) : Option String :=
  match st key with
  | none => none
  | some room => room.connected

/-- Write one room hash back to the store. -/
def setRoom (st : Store) (key : String) (r : RoomHash) : Store :=
  fun k => if k = key then some r else st k

/-- The distinct-count loop of the Lua script: walk the list with a set of
seen tokens, counting first occurrences only. -/
def luaCountAux : Finset String → List String → Nat
  | _, [] => 0
  | seen, v :: rest =>
      if v ∈ seen then luaCountAux seen rest
      else luaCountAux (insert v seen) rest + 1

/-- Distinct-token count as computed by the Lua script. -/
def luaCount (connected : List String) : Nat :=
  luaCountAux ∅ connected

/-- Store and transport events, recorded in program order. -/
inductive Ev where
  | storeRead : String → Ev
  | storeWrite : String → String → Ev
  | setCookie : String → String → Ev
deriving DecidableEq

/-- Cookie attributes as passed to `response.cookies.set`. -/
structure CookieOpts where
  path : String
  httpOnly : Bool
  sameSite : String
  secure : Bool
deriving DecidableEq

/-- A cookie association: name, value and attributes. -/
structure SetCookie where
  name : String
  value : String
  opts : CookieOpts
deriving DecidableEq

/-- Edge outcome of a request: pass through, or redirect with the
not-found or the room-full flag. -/
inductive Outcome where
  | next : Outcome
  | redirectNotFound : Outcome
  | redirectFull : Outcome
deriving DecidableEq

/-- A client response: the edge outcome and the cookie set on it, if any. -/
structure Response where
  outcome : Outcome
  cookie : Option SetCookie
deriving DecidableEq

/-- The atomic Lua admission script (`LUA_JOIN` of `src/proxy.ts`):
existence check, read and normalize `connected`, distinct count, capacity
check, append and write back.  Returns the integer code (-1 not found, 0
full, 1 admitted), the store after the call, and the script's store events
in program order. -/
def luaJoin (st : Store) (key : String) (token : String) (bound : Nat) :
    Int × Store × List Ev :=
  match st key with
  | none => (-1, st, [Ev.storeRead key])
  | some room =>
      let connected := luaParse room.connected
      if bound ≤ luaCount connected then
        (0, st, [Ev.storeRead key, Ev.storeRead key])
      else
        let updated := connected ++ [token]
        (1, setRoom st key { room with connected := some (encodeArr updated) },
          [Ev.storeRead key, Ev.storeRead key, Ev.storeWrite key (encodeArr updated)])

/-- Fold a sequence of completed Admission Script invocations against one
room key, all with the same capacity bound. -/
def joinAll (st : Store) (key : String) (bound : Nat) (toks : List String) : Store :=
  toks.foldl (fun s t => (luaJoin s key t bound).2.1) st

/-- Distinct-token count of the `connected` value stored for a key. -/
def roomDistinct (st : Store) (key : String) : Nat :=
  luaCount (luaParse (connRaw st key))

/-- The Admission Client of `src/proxy.ts`: fast path on an existing
per-room cookie with no store access; otherwise one atomic script call,
mapped to redirects or to pass-through with a room-scoped cookie.  The
fresh token (`nanoid()`) is a parameter. -/
def proxy (st : Store) (roomId : String) (existingToken : Option String)
    (newToken : String) : Response × Store × List Ev :=
  match existingToken with
  | some _ => ({ outcome := Outcome.next, cookie := none }, st, [])
  | none =>
      let key := "meta:" ++ roomId
      match luaJoin st key newToken 2 with
      | (res, st2, evs) =>
          if res = -1 then
            ({ outcome := Outcome.redirectNotFound, cookie := none }, st2, evs)
          else if res = 0 then
            ({ outcome := Outcome.redirectFull, cookie := none }, st2, evs)
          else
            let c : SetCookie :=
              { name := "x-auth-token-" ++ roomId, value := newToken,
                opts := { path := "/room/" ++ roomId, httpOnly := true,
                          sameSite := "lax", secure := true } }
            ({ outcome := Outcome.next, cookie := some c }, st2,
              evs ++ [Ev.setCookie c.name c.value])

/-- Occupancy count of `src/middleware.ts` step 4:
`new Set(connected.filter(Boolean)).size` — distinct count of the truthy
(non-empty) entries. -/
def middlewareDistinct (connected : List String) : Nat :=
  (connected.filter (fun s => !(s == ""))).toFinset.card

/-- The middleware variant (`src/middleware.ts`): read the metadata hash
first (`hgetall`), redirect if the room is absent, normalize `connected`,
pass through if the per-room cookie is present, enforce the cap of 2 on
the distinct truthy count, then append, write back and set the scoped
cookie.  `obs` models the Upstash client's observation of the raw stored
field (deserialized array or raw string). -/
def middleware (st : Store) (obs : Option String → StoredVal) (roomId : String)
    (existingToken : Option String) (newToken : String) :
    Response × Store × List Ev :=
  let key := "meta:" ++ roomId
  match st key with
  | none => ({ outcome := Outcome.redirectNotFound, cookie := none }, st,
      [Ev.storeRead key])
  | some room =>
      let connected := middlewareParse (obs room.connected)
      match existingToken with
      | some _ => ({ outcome := Outcome.next, cookie := none }, st,
          [Ev.storeRead key])
      | none =>
          if 2 ≤ middlewareDistinct connected then
            ({ outcome := Outcome.redirectFull, cookie := none }, st,
              [Ev.storeRead key])
          else
            let updated := connected ++ [newToken]
            let c : SetCookie :=
              { name := "x-auth-token-" ++ roomId, value := newToken,
                opts := { path := "/room/" ++ roomId, httpOnly := true,
                          sameSite := "lax", secure := true } }
            ({ outcome := Outcome.next, cookie := some c },
              setRoom st key { room with connected := some (encodeArr updated) },
              [Ev.storeRead key, Ev.storeWrite key (encodeArr updated),
                Ev.setCookie c.name c.value])

/-- Fast-path test of the legacy proxy variant: the (non-room-scoped)
cookie must be present and its token a member of `connected`. -/
def legacyTokenOk (existingToken : Option String) (connected : List String) : Bool :=
  match existingToken with
  | some tok => connected.contains tok
  | none => false

/-- The legacy proxy variant: read the metadata hash, redirect if absent,
parse `connected`, pass through only for a member token, block when the
raw length reaches 2, otherwise set the global-path cookie on the response
and then write the appended list back.  `isProd` models
`process.env.NODE_ENV === "production"`. -/
def proxyLegacy (st : Store) (obs : Option String → StoredVal) (roomId : String)
    (existingToken : Option String) (newToken : String) (isProd : Bool) :
    Response × Store × List Ev :=
  let key := "meta:" ++ roomId
  match st key with
  | none => ({ outcome := Outcome.redirectNotFound, cookie := none }, st,
      [Ev.storeRead key])
  | some meta =>
      let connected := legacyParse (obs meta.connected)
      if legacyTokenOk existingToken connected then
        ({ outcome := Outcome.next, cookie := none }, st, [Ev.storeRead key])
      else if 2 ≤ connected.length then
        ({ outcome := Outcome.redirectFull, cookie := none }, st,
          [Ev.storeRead key])
      else
        let c : SetCookie :=
          { name := "x-auth-token", value := newToken,
            opts := { path := "/", httpOnly := true,
                      sameSite := "strict", secure := isProd } }
        let updated := connected ++ [newToken]
        ({ outcome := Outcome.next, cookie := some c },
          setRoom st key { meta with connected := some (encodeArr updated) },
          [Ev.storeRead key, Ev.setCookie c.name c.value,
            Ev.storeWrite key (encodeArr updated)])

/-- Result of the re-validation collaborator: 401 rejection, or the
derived auth context (room id, token, normalized connected list). -/
inductive AuthResult where
  | unauthorized : AuthResult
  | ok : String → String → List String → AuthResult
deriving DecidableEq

/-- The Elysia auth middleware: reject when the room id or token is falsy;
otherwise read `connected` (`hget`), normalize it with `parseConnected`,
and reject unless the presented token is a member. -/
def authMiddleware (st : Store) (obs : Option String → StoredVal)
    (roomId : Option String) (token : Option String) :
    AuthResult × Store × List Ev :=
  match roomId, token with
  | some rid, some tok =>
      if rid = "" ∨ tok = "" then (AuthResult.unauthorized, st, [])
      else
        let key := "meta:" ++ rid
        let connected := parseConnected (obs (connRaw st key))
        if connected.contains tok then
          (AuthResult.ok rid tok connected, st, [Ev.storeRead key])
        else
          (AuthResult.unauthorized, st, [Ev.storeRead key])
  | _, _ => (AuthResult.unauthorized, st, [])

/-- Does a write event record the token (the token is a member of the
written `connected` text once normalized)? -/
def recordsToken (tok : String) (raw : String) : Bool :=
  (luaParse (some raw)).contains tok

/-- Scan a trace in program order: `false` iff a cookie carrying `tok` is
associated before any store write that records `tok`. -/
def cookieAfterWrite (tok : String) : List Ev → Bool
  | [] => true
  | Ev.setCookie _ v :: rest =>
      if v = tok then false else cookieAfterWrite tok rest
  | Ev.storeWrite _ raw :: rest =>
      if recordsToken tok raw then true else cookieAfterWrite tok rest
  | Ev.storeRead _ :: rest => cookieAfterWrite tok rest

/-- The raw-string observation of the stored field: the client hands back
the stored text unparsed (one of the store's observed shapes). -/
def rawObs : Option String → StoredVal
  | none => StoredVal.absent
  | some s => StoredVal.str s

/-- A room pre-seeded with a duplicated token, as in the duplicate
tolerance scenario. -/
def room2 : RoomHash :=
  { connected := some (encodeArr ["t1", "t1"]), createdAt := some "0" }

/-- Store holding only `room2` under `meta:r`. -/
def st2 : Store :=
  fun k => if k = "meta:r" then some room2 else none

/-- A freshly created, empty room. -/
def room0 : RoomHash :=
  { connected := none, createdAt := some "0" }

/-- Store holding only the fresh `room0` under `meta:r`. -/
def st1 : Store :=
  fun k => if k = "meta:r" then some room0 else none

/-- The empty store: no room exists. -/
def stEmpty : Store := fun _ => none

/-- The cookie the proxy variant sets when admitting token `tk` to room
`r`. -/
def cookieOf : SetCookie :=
  { name := "x-auth-token-r", value := "tk",
    opts := { path := "/room/r", httpOnly := true,
              sameSite := "lax", secure := true } }

theorem encTail_nil : encTail [] = [']'] := by
  rw [encTail.eq_def]

theorem encTail_single (x : List Char) : encTail [x] = encStrChars x ++ [']'] := by
  rw [encTail.eq_def]

theorem encTail_cons (x y : List Char) (ys : List (List Char)) :
    encTail (x :: y :: ys) = encStrChars x ++ ',' :: encTail (y :: ys) := by
  rw [encTail.eq_def]

theorem parseStrBody_quote (rest : List Char) :
    parseStrBody ('"' :: rest) = some ([], rest) := by
  rw [parseStrBody.eq_def]; rfl

theorem parseStrBody_escaped (c : Char) (rest : List Char) :
    parseStrBody ('\\' :: c :: rest) =
      match parseStrBody rest with
      | some (s, r) => some (c :: s, r)
      | none => none := by
  rw [parseStrBody.eq_def]; rfl

theorem parseStrBody_plain (c : Char) (rest : List Char)
    (h1 : ¬ c = '"') (h2 : ¬ c = '\\') :
    parseStrBody (c :: rest) =
      match parseStrBody rest with
      | some (s, r) => some (c :: s, r)
      | none => none := by
  rw [parseStrBody.eq_def]
  simp only [if_neg h1, if_neg h2]

/-- The string-body parser inverts the escaper: parsing the escaped body
followed by a closing quote returns the original content. -/
theorem parseStrBody_escStr (cs : List Char) (rest : List Char) :
    parseStrBody (escStr cs ++ '"' :: rest) = some (cs, rest) := by
  induction cs with
  | nil => simp [escStr, parseStrBody_quote]
  | cons c cs ih =>
      by_cases h : c = '"' ∨ c = '\\'
      · have e1 : escStr (c :: cs) ++ '"' :: rest
            = '\\' :: c :: (escStr cs ++ '"' :: rest) := by
          simp [escStr, escChar, if_pos h]
        rw [e1, parseStrBody_escaped, ih]
      · push_neg at h
        have hc : ¬ (c = '"' ∨ c = '\\') := by tauto
        have e1 : escStr (c :: cs) ++ '"' :: rest
            = c :: (escStr cs ++ '"' :: rest) := by
          simp [escStr, escChar, hc]
        rw [e1, parseStrBody_plain c _ h.1 h.2, ih]

theorem parseElemsF_close (f : Nat) (rest : List Char) :
    parseElemsF (f + 1) (']' :: rest) = some ([], rest) := by
  rw [parseElemsF.eq_def]; rfl

theorem parseElemsF_quote (f : Nat) (rest : List Char) :
    parseElemsF (f + 1) ('"' :: rest) =
      match parseStrBody rest with
      | none => none
      | some (s, r) =>
          match r with
          | ',' :: r2 =>
              match parseElemsF f r2 with
              | some (xs, rr) => some (s :: xs, rr)
              | none => none
          | ']' :: r2 => some ([s], r2)
          | _ => none := by
  rw [parseElemsF.eq_def]; rfl

/-- The encoded array tail is at least as long as the element list, so the
input length plus one is always enough fuel for `parseElemsF`. -/
theorem length_le_encTail (m : List (List Char)) :
    m.length ≤ (encTail m).length := by
  induction m with
  | nil => simp [encTail_nil]
  | cons x xs ih =>
      cases xs with
      | nil => simp [encTail_single, encStrChars]
      | cons y ys =>
          simp only [encTail_cons, encStrChars, List.length_append,
            List.length_cons] at *
          omega

/-- The element parser inverts the array-tail encoder whenever the fuel
exceeds the number of elements. -/
theorem parseElemsF_encTail (m : List (List Char)) :
    ∀ fuel, m.length < fuel → parseElemsF fuel (encTail m) = some (m, []) := by
  induction m with
  | nil =>
      intro fuel h
      cases fuel with
      | zero => omega
      | succ f => rw [encTail_nil]; exact parseElemsF_close f []
  | cons x xs ih =>
      intro fuel h
      cases fuel with
      | zero => omega
      | succ f =>
          cases xs with
          | nil =>
              have e1 : encTail [x] = '"' :: (escStr x ++ '"' :: [']']) := by
                simp [encTail_single, encStrChars]
              rw [e1, parseElemsF_quote, parseStrBody_escStr]
              rfl
          | cons y ys =>
              have e1 : encTail (x :: y :: ys)
                  = '"' :: (escStr x ++ '"' :: (',' :: encTail (y :: ys))) := by
                simp [encTail_cons, encStrChars]
              rw [e1, parseElemsF_quote, parseStrBody_escStr]
              have hlen : (y :: ys).length < f := by
                simp only [List.length_cons] at h ⊢
                omega
              simp [ih f hlen]

theorem jsonParseChars_bracket (rest : List Char) :
    jsonParseChars ('[' :: rest) =
      match parseElemsF (rest.length + 1) rest with
      | some (xs, []) => some (Json.arr (xs.map (fun cs => String.mk cs)))
      | _ => none := by
  rw [jsonParseChars.eq_def]; rfl

/-- Round trip: parsing an encoded token array returns exactly that array.
This is the normalization round-trip the store relies on. -/
theorem jsonParse_encodeArr (l : List String) :
    jsonParse (encodeArr l) = some (Json.arr l) := by
  show jsonParseChars ('[' :: encTail (l.map String.data)) = some (Json.arr l)
  rw [jsonParseChars_bracket,
      parseElemsF_encTail (l.map String.data) ((encTail (l.map String.data)).length + 1)
        (by have := length_le_encTail (l.map String.data); omega)]
  show some (Json.arr ((l.map String.data).map (fun cs => String.mk cs)))
      = some (Json.arr l)
  rw [List.map_map]
  exact congrArg (fun t => some (Json.arr t)) (List.map_id l)

theorem luaParse_encodeArr (l : List String) : luaParse (some (encodeArr l)) = l := by
  simp [luaParse, jsonParse_encodeArr]

/-- The Lua seen-set loop counts the distinct elements not yet seen. -/
theorem luaCountAux_eq (l : List String) :
    ∀ seen, luaCountAux seen l = (l.toFinset \ seen).card := by
  induction l with
  | nil => intro seen; simp [luaCountAux]
  | cons v l ih =>
      intro seen
      simp only [luaCountAux]
      by_cases h : v ∈ seen
      · rw [if_pos h, ih]
        have hs : (v :: l).toFinset \ seen = l.toFinset \ seen := by
          ext x
          by_cases hxv : x = v
          · subst hxv
            simp [h]
          · simp [hxv]
        rw [hs]
      · rw [if_neg h, ih]
        have hs : (v :: l).toFinset \ seen
            = insert v (l.toFinset \ insert v seen) := by
          ext x
          by_cases hxv : x = v
          · subst hxv
            simp [h]
          · simp only [List.toFinset_cons, Finset.mem_sdiff, Finset.mem_insert,
              hxv, false_or]
        rw [hs, Finset.card_insert_of_not_mem (by simp)]

/-- The Lua distinct count is the cardinality of the token set. -/
theorem luaCount_eq (l : List String) : luaCount l = l.toFinset.card := by
  simp [luaCount, luaCountAux_eq]

/-- Appending one token raises the distinct count by at most one. -/
theorem luaCount_append_le (l : List String) (t : String) :
    luaCount (l ++ [t]) ≤ luaCount l + 1 := by
  simp only [luaCount_eq, List.toFinset_append]
  refine le_trans (Finset.card_union_le _ _) ?_
  simp

/-- One completed script invocation preserves the capacity invariant. -/
theorem luaJoin_preserves (st : Store) (key : String) (t : String) (N : Nat)
    (h : roomDistinct st key ≤ N) :
    roomDistinct (luaJoin st key t N).2.1 key ≤ N := by
  cases hst : st key with
  | none => simpa [luaJoin, hst] using h
  | some room =>
      by_cases hc : N ≤ luaCount (luaParse room.connected)
      · simpa [luaJoin, hst, hc] using h
      · have hlt : luaCount (luaParse room.connected) < N := by omega
        have hnew : roomDistinct (luaJoin st key t N).2.1 key
            = luaCount (luaParse room.connected ++ [t]) := by
          simp [luaJoin, hst, hc, roomDistinct, connRaw, setRoom, luaParse_encodeArr]
        rw [hnew]
        have := luaCount_append_le (luaParse room.connected) t
        omega

/-- C1: for every room and capacity bound N, starting from a stored
`connected` whose distinct-token count is at most N, after any sequence of
completed Admission Script invocations against that room the distinct
count never exceeds N. -/
theorem lua_capacity_invariant (N : Nat) (key : String) (toks : List String)
    (st : Store) (h : roomDistinct st key ≤ N) :
    roomDistinct (joinAll st key N toks) key ≤ N := by
  induction toks generalizing st with
  | nil => simpa [joinAll] using h
  | cons t ts ih =>
      have h1 := luaJoin_preserves st key t N h
      simpa [joinAll, List.foldl_cons] using ih _ h1

theorem lua_capacity_invariant_w :
    roomDistinct st2 "meta:r" ≤ 2 ∧
      roomDistinct (joinAll st2 "meta:r" 2 ["a", "b", "c"]) "meta:r" ≤ 2 :=
  ⟨by decide, lua_capacity_invariant 2 "meta:r" ["a", "b", "c"] st2 (by decide)⟩

/-- C2 (amended): the Admission Script gates on the distinct-token count —
it returns full iff the distinct count is at least the bound and admits
iff it is below — and with `connected = ["t1","t1"]` and bound 2 the
distinct count is 1 and exactly one more token is admitted before full is
reported.  The legacy proxy variant instead gates on the raw length of the
parsed sequence. -/
theorem distinct_gating_amended :
    (∀ (st : Store) (key t : String) (N : Nat) (room : RoomHash),
        st key = some room →
        (((luaJoin st key t N).1 = 0) ↔ N ≤ luaCount (luaParse room.connected)) ∧
        (((luaJoin st key t N).1 = 1) ↔ luaCount (luaParse room.connected) < N)) ∧
    (luaCount (luaParse (connRaw st2 "meta:r")) = 1 ∧
      (luaJoin st2 "meta:r" "t2" 2).1 = 1 ∧
      (luaJoin (luaJoin st2 "meta:r" "t2" 2).2.1 "meta:r" "t3" 2).1 = 0) ∧
    (∀ (st : Store) (obs : Option String → StoredVal) (roomId nt : String)
        (isProd : Bool) (meta : RoomHash),
        st ("meta:" ++ roomId) = some meta →
        ((proxyLegacy st obs roomId none nt isProd).1.outcome = Outcome.redirectFull ↔
          2 ≤ (legacyParse (obs meta.connected)).length)) := by
  refine ⟨?_, by decide, ?_⟩
  · intro st key t N room hst
    by_cases hc : N ≤ luaCount (luaParse room.connected)
    · constructor
      · simp [luaJoin, hst, hc]
      · simp only [luaJoin, hst, if_pos hc]
        constructor
        · intro h; exact absurd h (by decide)
        · intro h; omega
    · constructor
      · simp only [luaJoin, hst, if_neg hc]
        constructor
        · intro h; exact absurd h (by decide)
        · intro h; omega
      · simp [luaJoin, hst, hc]
        omega
  · intro st obs roomId nt isProd meta hst
    by_cases hf : 2 ≤ (legacyParse (obs meta.connected)).length
    · simp [proxyLegacy, legacyTokenOk, hst, hf]
    · simp [proxyLegacy, legacyTokenOk, hst, hf]

theorem distinct_gating_amended_w :
    (luaJoin st2 "meta:r" "tX" 2).1 = 0 ↔
      2 ≤ luaCount (luaParse room2.connected) :=
  (distinct_gating_amended.1 st2 "meta:r" "tX" 2 room2 (by decide)).1

/-- C2 counterexample: on the legacy proxy variant, a room whose stored
`connected` is the encoding of `["t1","t1"]` (distinct count 1, below the
bound 2) is reported full, so the admission decision is not gated on the
distinct count there. -/
theorem legacy_raw_length_cex :
    (proxyLegacy st2 rawObs "r" none "t2" true).1.outcome = Outcome.redirectFull ∧
    luaCount (legacyParse (rawObs (connRaw st2 "meta:r"))) = 1 := by decide

/-- C4: an Admission Script invocation against an absent room key returns
the not-found code and performs no mutation — the store is unchanged and
the key remains absent; the proxy and middleware clients surface this as
the not-found redirect with no cookie and no store change. -/
theorem missing_room_not_found :
    (∀ (st : Store) (key t : String) (N : Nat), st key = none →
      (luaJoin st key t N).1 = -1 ∧ (luaJoin st key t N).2.1 = st ∧
      (luaJoin st key t N).2.1 key = none) ∧
    (∀ (st : Store) (roomId nt : String), st ("meta:" ++ roomId) = none →
      (proxy st roomId none nt).1
          = { outcome := Outcome.redirectNotFound, cookie := none } ∧
      (proxy st roomId none nt).2.1 = st) ∧
    (∀ (st : Store) (obs : Option String → StoredVal) (roomId nt : String)
        (et : Option String), st ("meta:" ++ roomId) = none →
      (middleware st obs roomId et nt).1
          = { outcome := Outcome.redirectNotFound, cookie := none } ∧
      (middleware st obs roomId et nt).2.1 = st) := by
  refine ⟨?_, ?_, ?_⟩
  · intro st key t N h
    refine ⟨by simp [luaJoin, h], by simp [luaJoin, h], ?_⟩
    simp [luaJoin, h]
  · intro st roomId nt h
    constructor
    · simp [proxy, luaJoin, h]
    · simp [proxy, luaJoin, h]
  · intro st obs roomId nt et h
    constructor
    · simp [middleware, h]
    · simp [middleware, h]

theorem missing_room_not_found_w :
    (luaJoin stEmpty "meta:x" "t" 2).1 = -1 :=
  (missing_room_not_found.1 stEmpty "meta:x" "t" 2 rfl).1

/-- C5: normalization of a stored `connected` value is total and uniform —
a structured sequence is used as-is; a raw string that decodes to a
sequence yields the same tokens as the structured form of the same
content (round trip); absence, parse failure, or decoding to a
non-sequence yields the empty sequence. -/
theorem parseConnected_normalization :
    (∀ xs, parseConnected (StoredVal.arr xs) = xs) ∧
    (∀ s xs, jsonParse s = some (Json.arr xs) →
      parseConnected (StoredVal.str s) = xs) ∧
    (∀ s, jsonParse s = none → parseConnected (StoredVal.str s) = []) ∧
    (∀ s j, jsonParse s = some j → (∀ xs, j ≠ Json.arr xs) →
      parseConnected (StoredVal.str s) = []) ∧
    (parseConnected StoredVal.absent = [] ∧ parseConnected StoredVal.other = []) ∧
    (∀ xs, parseConnected (StoredVal.str (encodeArr xs))
        = parseConnected (StoredVal.arr xs)) := by
  refine ⟨fun xs => rfl, ?_, ?_, ?_, ⟨rfl, rfl⟩, ?_⟩
  · intro s xs h
    simp [parseConnected, h]
  · intro s h
    simp [parseConnected, h]
  · intro s j h hja
    cases j with
    | arr xs => exact absurd rfl (hja xs)
    | str t => simp [parseConnected, h]
    | num n => simp [parseConnected, h]
    | null => simp [parseConnected, h]
  · intro xs
    simp [parseConnected, jsonParse_encodeArr]

theorem parseConnected_normalization_w :
    parseConnected (StoredVal.str (encodeArr ["a"])) = ["a"] :=
  parseConnected_normalization.2.1 (encodeArr ["a"]) ["a"] (by decide)

/-- A write of an appended list records the appended token. -/
theorem recordsToken_encode (t : String) (xs : List String) :
    recordsToken t (encodeArr (xs ++ [t])) = true := by
  simp only [recordsToken, luaParse_encodeArr, List.contains]
  exact List.elem_eq_true_of_mem
    (List.mem_append_right _ (List.mem_singleton_self t))

/-- C6 counterexample: in the middleware variant a request that already
carries the per-room token still triggers a read of the room's metadata
before the pass-through is returned, so the fast path is not free of
store access there. -/
theorem middleware_fastpath_reads_cex :
    (middleware st2 rawObs "r" (some "t1") "nt").1.outcome = Outcome.next ∧
    Ev.storeRead "meta:r" ∈ (middleware st2 rawObs "r" (some "t1") "nt").2.2 := by
  decide

/-- C6 (amended): in the proxy variant a token-bearing request passes
through immediately with no store access at all; the middleware variant
instead performs one metadata read before its fast-path check — when the
room exists a token-bearing request passes through after exactly that one
read with no write and no store change, and when the room is absent it is
redirected not-found even though it carries a token. -/
theorem fastpath_amended :
    (∀ (st : Store) (roomId tok nt : String),
      proxy st roomId (some tok) nt
        = ({ outcome := Outcome.next, cookie := none }, st, [])) ∧
    (∀ (st : Store) (obs : Option String → StoredVal) (roomId tok nt : String)
        (room : RoomHash), st ("meta:" ++ roomId) = some room →
      middleware st obs roomId (some tok) nt
        = ({ outcome := Outcome.next, cookie := none }, st,
            [Ev.storeRead ("meta:" ++ roomId)])) ∧
    (∀ (st : Store) (obs : Option String → StoredVal) (roomId tok nt : String),
        st ("meta:" ++ roomId) = none →
      (middleware st obs roomId (some tok) nt).1.outcome
        = Outcome.redirectNotFound) := by
  refine ⟨fun st roomId tok nt => rfl, ?_, ?_⟩
  · intro st obs roomId tok nt room h
    simp [middleware, h]
  · intro st obs roomId tok nt h
    simp [middleware, h]

theorem fastpath_amended_w :
    middleware st2 rawObs "r" (some "t1") "nt"
      = ({ outcome := Outcome.next, cookie := none }, st2,
          [Ev.storeRead ("meta:" ++ "r")]) :=
  fastpath_amended.2.1 st2 rawObs "r" "t1" "nt" room2 (by decide)

/-- C7 counterexample: the legacy proxy variant, admitting a token into a
fresh room, associates the cookie with the response before the store
write that records the token, so the write does not precede the
association in that execution. -/
theorem legacy_cookie_before_write_cex :
    (proxyLegacy st1 rawObs "r" none "t2" true).1.outcome = Outcome.next ∧
    (proxyLegacy st1 rawObs "r" none "t2" true).1.cookie ≠ none ∧
    cookieAfterWrite "t2" (proxyLegacy st1 rawObs "r" none "t2" true).2.2
      = false := by
  decide

/-- C7 (amended): in the proxy and middleware variants every execution
records the token in the store before the cookie carrying it is
associated with the response, and on the not-found and full outcomes no
cookie is ever set (in the legacy variant too); the legacy variant,
however, associates the cookie before its store write. -/
theorem cookie_after_write_amended :
    (∀ (st : Store) (roomId nt : String) (et : Option String),
      cookieAfterWrite nt (proxy st roomId et nt).2.2 = true) ∧
    (∀ (st : Store) (obs : Option String → StoredVal) (roomId nt : String)
        (et : Option String),
      cookieAfterWrite nt (middleware st obs roomId et nt).2.2 = true) ∧
    (∀ (st : Store) (roomId nt : String) (et : Option String),
      (proxy st roomId et nt).1.outcome ≠ Outcome.next →
      (proxy st roomId et nt).1.cookie = none) ∧
    (∀ (st : Store) (obs : Option String → StoredVal) (roomId nt : String)
        (et : Option String),
      (middleware st obs roomId et nt).1.outcome ≠ Outcome.next →
      (middleware st obs roomId et nt).1.cookie = none) ∧
    (∀ (st : Store) (obs : Option String → StoredVal) (roomId nt : String)
        (et : Option String) (ip : Bool),
      (proxyLegacy st obs roomId et nt ip).1.outcome ≠ Outcome.next →
      (proxyLegacy st obs roomId et nt ip).1.cookie = none) := by
  refine ⟨?_, ?_, ?_, ?_, ?_⟩
  · intro st roomId nt et
    cases et with
    | some tok => rfl
    | none =>
        cases hst : st ("meta:" ++ roomId) with
        | none => simp [proxy, luaJoin, hst, cookieAfterWrite]
        | some room =>
            by_cases hc : 2 ≤ luaCount (luaParse room.connected)
            · simp [proxy, luaJoin, hst, hc, cookieAfterWrite]
            · simp [proxy, luaJoin, hst, hc, cookieAfterWrite, recordsToken_encode]
  · intro st obs roomId nt et
    cases hst : st ("meta:" ++ roomId) with
    | none => simp [middleware, hst, cookieAfterWrite]
    | some room =>
        cases et with
        | some tok => simp [middleware, hst, cookieAfterWrite]
        | none =>
            by_cases hc : 2 ≤ middlewareDistinct (middlewareParse (obs room.connected))
            · simp [middleware, hst, hc, cookieAfterWrite]
            · simp [middleware, hst, hc, cookieAfterWrite, recordsToken_encode]
  · intro st roomId nt et h
    cases et with
    | some tok => rfl
    | none =>
        cases hst : st ("meta:" ++ roomId) with
        | none => simp [proxy, luaJoin, hst]
        | some room =>
            by_cases hc : 2 ≤ luaCount (luaParse room.connected)
            · simp [proxy, luaJoin, hst, hc]
            · exfalso
              exact h (by simp [proxy, luaJoin, hst, hc])
  · intro st obs roomId nt et h
    cases hst : st ("meta:" ++ roomId) with
    | none => simp [middleware, hst]
    | some room =>
        cases et with
        | some tok => exact absurd (by simp [middleware, hst]) h
        | none =>
            by_cases hc : 2 ≤ middlewareDistinct (middlewareParse (obs room.connected))
            · simp [middleware, hst, hc]
            · exact absurd (by simp [middleware, hst, hc]) h
  · intro st obs roomId nt et ip h
    cases hst : st ("meta:" ++ roomId) with
    | none => simp [proxyLegacy, hst]
    | some meta =>
        by_cases ht : legacyTokenOk et (legacyParse (obs meta.connected)) = true
        · exact absurd (by simp [proxyLegacy, hst, ht]) h
        · by_cases hf : 2 ≤ (legacyParse (obs meta.connected)).length
          · simp [proxyLegacy, hst, ht, hf]
          · exact absurd (by simp [proxyLegacy, hst, ht, hf]) h

theorem cookie_after_write_amended_w :
    (proxy stEmpty "r" none "tk").1.cookie = none :=
  cookie_after_write_amended.2.2.1 stEmpty "r" "tk" none (by decide)

/-- C8: the re-validation collaborator rejects as unauthorized, with no
Admission Script invocation and no store mutation, every request with a
missing (or empty) room id or token, and every request whose token is not
a member of the room's normalized `connected` sequence; only a member
token is accepted. -/
theorem auth_rejects_invalid :
    (∀ (st : Store) (obs : Option String → StoredVal) (t : Option String),
      authMiddleware st obs none t = (AuthResult.unauthorized, st, [])) ∧
    (∀ (st : Store) (obs : Option String → StoredVal) (r : Option String),
      authMiddleware st obs r none = (AuthResult.unauthorized, st, [])) ∧
    (∀ (st : Store) (obs : Option String → StoredVal) (rid tok : String),
      rid = "" ∨ tok = "" →
      authMiddleware st obs (some rid) (some tok)
        = (AuthResult.unauthorized, st, [])) ∧
    (∀ (st : Store) (obs : Option String → StoredVal) (rid tok : String),
      ¬(rid = "" ∨ tok = "") →
      (authMiddleware st obs (some rid) (some tok)).2.1 = st ∧
      (∀ k raw,
        Ev.storeWrite k raw ∉ (authMiddleware st obs (some rid) (some tok)).2.2) ∧
      ((authMiddleware st obs (some rid) (some tok)).1 = AuthResult.unauthorized ↔
        tok ∉ parseConnected (obs (connRaw st ("meta:" ++ rid)))) ∧
      (∀ c r l,
        (authMiddleware st obs (some rid) (some tok)).1 = AuthResult.ok c r l →
        r ∈ l)) := by
  refine ⟨?_, ?_, ?_, ?_⟩
  · intro st obs t
    cases t with
    | none => rfl
    | some tok => rfl
  · intro st obs r
    cases r with
    | none => rfl
    | some rid => rfl
  · intro st obs rid tok h
    simp [authMiddleware, if_pos h]
  · intro st obs rid tok h
    by_cases hm : (parseConnected (obs (connRaw st ("meta:" ++ rid)))).contains tok
    · have hmem : tok ∈ parseConnected (obs (connRaw st ("meta:" ++ rid))) :=
        List.elem_iff.mp hm
      refine ⟨by simp [authMiddleware, h, hmem], ?_, ?_, ?_⟩
      · intro k raw
        simp [authMiddleware, h, hmem]
      · simp only [authMiddleware, if_neg h, if_pos hm]
        constructor
        · intro hbad
          exact absurd hbad (by simp)
        · intro hnot
          exact absurd hmem hnot
      · intro c r l hok
        simp only [authMiddleware, if_neg h, if_pos hm] at hok
        cases hok
        exact hmem
    · have hnmem : tok ∉ parseConnected (obs (connRaw st ("meta:" ++ rid))) := by
        intro hmem
        exact hm (List.elem_iff.mpr hmem)
      refine ⟨by simp [authMiddleware, h, hnmem], ?_, ?_, ?_⟩
      · intro k raw
        simp [authMiddleware, h, hnmem]
      · simp [authMiddleware, if_neg h, hnmem]
      · intro c r l hok
        simp [authMiddleware, if_neg h, hnmem] at hok

theorem auth_rejects_invalid_w :
    (authMiddleware st2 rawObs (some "r") (some "zz")).1
      = AuthResult.unauthorized := by
  have h := ((auth_rejects_invalid.2.2.2 st2 rawObs "r" "zz"
    (by decide)).2.2).1
  exact h.mpr (by decide)

/-- C9 counterexample: the legacy proxy variant, on an Admitted outcome,
sets its cookie with path `/`, not the room-scoped path, so the cookie is
sent for requests to other rooms. -/
theorem legacy_cookie_scope_cex :
    (proxyLegacy st1 rawObs "r" none "t2" true).1.outcome = Outcome.next ∧
    Option.map (fun c => c.opts.path)
        (proxyLegacy st1 rawObs "r" none "t2" true).1.cookie = some "/" ∧
    ("/" : String) ≠ "/room/" ++ "r" := by
  decide

/-- C9 (amended): in the proxy and middleware variants the Admitted
cookie is scoped to the room's path, flagged httpOnly and secure, and no
cookie is set on the fast path; the legacy variant instead scopes its
cookie to `/` (with secure only in production), though it too sets no
cookie on its pass-through path. -/
theorem cookie_attrs_amended :
    (∀ (st : Store) (roomId nt : String) (c : SetCookie),
      (proxy st roomId none nt).1.cookie = some c →
      c.opts.path = "/room/" ++ roomId ∧ c.opts.httpOnly = true ∧
      c.opts.secure = true ∧ c.value = nt ∧
      c.name = "x-auth-token-" ++ roomId) ∧
    (∀ (st : Store) (obs : Option String → StoredVal) (roomId nt : String)
        (c : SetCookie),
      (middleware st obs roomId none nt).1.cookie = some c →
      c.opts.path = "/room/" ++ roomId ∧ c.opts.httpOnly = true ∧
      c.opts.secure = true ∧ c.value = nt) ∧
    (∀ (st : Store) (roomId tok nt : String),
      (proxy st roomId (some tok) nt).1.cookie = none) ∧
    (∀ (st : Store) (obs : Option String → StoredVal) (roomId tok nt : String),
      (middleware st obs roomId (some tok) nt).1.cookie = none) ∧
    (∀ (st : Store) (obs : Option String → StoredVal) (roomId tok nt : String)
        (ip : Bool) (room : RoomHash),
      st ("meta:" ++ roomId) = some room →
      legacyTokenOk (some tok) (legacyParse (obs room.connected)) = true →
      (proxyLegacy st obs roomId (some tok) nt ip).1.cookie = none) ∧
    (∀ (st : Store) (obs : Option String → StoredVal) (roomId nt : String)
        (ip : Bool) (c : SetCookie),
      (proxyLegacy st obs roomId none nt ip).1.cookie = some c →
      c.opts.path = "/" ∧ c.opts.secure = ip ∧ c.opts.httpOnly = true) := by
  refine ⟨?_, ?_, ?_, ?_, ?_, ?_⟩
  · intro st roomId nt c hc
    cases hst : st ("meta:" ++ roomId) with
    | none => simp [proxy, luaJoin, hst] at hc
    | some room =>
        by_cases hfull : 2 ≤ luaCount (luaParse room.connected)
        · simp [proxy, luaJoin, hst, hfull] at hc
        · simp [proxy, luaJoin, hst, hfull] at hc
          subst hc
          simp
  · intro st obs roomId nt c hc
    cases hst : st ("meta:" ++ roomId) with
    | none => simp [middleware, hst] at hc
    | some room =>
        by_cases hfull : 2 ≤ middlewareDistinct (middlewareParse (obs room.connected))
        · simp [middleware, hst, hfull] at hc
        · simp [middleware, hst, hfull] at hc
          subst hc
          simp
  · intro st roomId tok nt
    rfl
  · intro st obs roomId tok nt
    cases hst : st ("meta:" ++ roomId) with
    | none => simp [middleware, hst]
    | some room => simp [middleware, hst]
  · intro st obs roomId tok nt ip room hst ht
    simp [proxyLegacy, hst, ht]
  · intro st obs roomId nt ip c hc
    cases hst : st ("meta:" ++ roomId) with
    | none => simp [proxyLegacy, hst] at hc
    | some room =>
        by_cases hfull : 2 ≤ (legacyParse (obs room.connected)).length
        · simp [proxyLegacy, legacyTokenOk, hst, hfull] at hc
        · simp [proxyLegacy, legacyTokenOk, hst, hfull] at hc
          subst hc
          simp

theorem cookie_attrs_amended_w :
    cookieOf.opts.path = "/room/" ++ "r" ∧ cookieOf.opts.httpOnly = true ∧
    cookieOf.opts.secure = true ∧ cookieOf.value = "tk" ∧
    cookieOf.name = "x-auth-token-" ++ "r" :=
  cookie_attrs_amended.1 st1 "r" "tk" cookieOf (by decide)

/-- C10: the middleware occupancy count is the number of distinct truthy
entries of the normalized `connected` sequence: it equals the cardinality
of the set of its non-empty members, and a stored empty-string token never
consumes a capacity slot (prepending one never changes the count). -/
theorem middleware_distinct_truthy :
    (∀ xs : List String,
      middlewareDistinct xs = (xs.toFinset.filter (fun s => s ≠ "")).card) ∧
    (∀ xs : List String, middlewareDistinct ("" :: xs) = middlewareDistinct xs) := by
  have hgen : ∀ ys : List String,
      middlewareDistinct ys = (ys.toFinset.filter (fun s => s ≠ "")).card := by
    intro ys
    show (ys.filter (fun s => !(s == ""))).toFinset.card = _
    congr 1
    ext a
    simp [List.mem_filter]
  refine ⟨hgen, ?_⟩
  intro xs
  rw [hgen, hgen]
  congr 1
  ext a
  simp only [List.toFinset_cons, Finset.mem_filter, Finset.mem_insert]
  constructor
  · rintro ⟨hx | hx, hne⟩
    · exact absurd hx hne
    · exact ⟨hx, hne⟩
  · rintro ⟨hx, hne⟩
    exact ⟨Or.inr hx, hne⟩
